import Mathlib

/-!
Shallow embedding of `message_ix/models.py` (the MESSAGE/MACRO GAMS model
wrappers) and proofs about it.

Python dictionaries are modelled as association lists `List (String × V)`
with Python's semantics: `dset` keeps the position of an existing key and
appends a fresh key at the end (insertion order), `dget` returns the value
at a key, `derase` models `dict.pop`, `dupd` models `dict.update`.

Mutable Python objects (the module-level option/item dictionaries and the
per-instance `cplex_opts`) are modelled by an explicit heap of dictionary
cells, so that aliasing, `copy`, and `deepcopy` are distinguishable and the
frame-effect claims are meaningful.

File-system and subprocess effects are modelled as explicit event traces;
the external GAMS engine and the ixmp platform are parameters.
-/

namespace MsgIx

/-! ## Generic list access (positional) -/

/-- Optional positional lookup in a list. -/
def nthOpt {α : Type} : List α → Nat → Option α
  | [], _ => none
  | a :: _, 0 => some a
  | _ :: rest, n + 1 => nthOpt rest n

/-- Positional lookup with a default. -/
def nthD {α : Type} (l : List α) (n : Nat) (d : α) : α := (nthOpt l n).getD d

/-- Replace the element at a position (out-of-range is a no-op). -/
def setNth {α : Type} : List α → Nat → α → List α
  | [], _, _ => []
  | _ :: rest, 0, d => d :: rest
  | c :: rest, n + 1, d => c :: setNth rest n d

/-! ## Python dictionaries as association lists -/

/-- `d[k]`, as an `Option`. -/
def dget {V : Type} : List (String × V) → String → Option V
  | [], _ => none
  | (k', v) :: rest, k => if k' = k then some v else dget rest k

/-- `k in d`. -/
def dcontains {V : Type} (d : List (String × V)) (k : String) : Bool :=
  (dget d k).isSome

/-- `d[k] = v`: replace in place if the key exists, else append (Python
insertion-order semantics). -/
def dset {V : Type} : List (String × V) → String → V → List (String × V)
  | [], k, v => [(k, v)]
  | (k', v') :: rest, k, v =>
      if k' = k then (k, v) :: rest else (k', v') :: dset rest k v

/-- `d.update(u)`: apply the entries of `u` in order. -/
def dupd {V : Type} (d u : List (String × V)) : List (String × V) :=
  u.foldl (fun a p => dset a p.1 p.2) d

/-- `d.pop(k)` (the removal part): drop the first binding of `k`. -/
def derase {V : Type} : List (String × V) → String → List (String × V)
  | [], _ => []
  | (k', v') :: rest, k => if k' = k then rest else (k', v') :: derase rest k

/-- The keys of a dictionary, in order. -/
def dkeys {V : Type} (d : List (String × V)) : List String := d.map Prod.fst

/-- Well-formedness of a Python dictionary: keys are distinct. -/
abbrev nodupKeys {V : Type} (d : List (String × V)) : Prop := (dkeys d).Nodup

/-- Position of the first binding of a key. -/
def posOf {α : Type} : List (String × α) → String → Option Nat
  | [], _ => none
  | (k', _) :: rest, k =>
      if k' = k then some 0 else (posOf rest k).map (· + 1)

/-- Re-address an association list with consecutive addresses from `i`. -/
def reEnum {α : Type} : Nat → List (String × α) → List (String × Nat)
  | _, [] => []
  | i, (k, _) :: rest => (k, i) :: reEnum (i + 1) rest

/-! ## A heap of dictionary cells

Mutable Python dictionaries live in cells; a cell address is a `Nat`.
`alloc` models creating a fresh dictionary object (e.g. `copy`),
`write` models in-place mutation of an existing object. -/

structure Heap (V : Type) where
  cells : List (List (String × V))
deriving Repr, DecidableEq

/-- Dereference a cell (unallocated cells read as the empty dictionary;
the programs modelled here never read unallocated cells). -/
def Heap.read {V : Type} (h : Heap V) (a : Nat) : List (String × V) :=
  nthD h.cells a []

/-- Allocate a fresh cell holding `d`; returns the new heap and address. -/
def Heap.alloc {V : Type} (h : Heap V) (d : List (String × V)) : Heap V × Nat :=
  (⟨h.cells ++ [d]⟩, h.cells.length)

/-- Overwrite the contents of cell `a`. -/
def Heap.write {V : Type} (h : Heap V) (a : Nat) (d : List (String × V)) : Heap V :=
  ⟨setNth h.cells a d⟩

/-! ## Python scalar values -/

/-- Python scalar values appearing in the option dictionaries.  A float is
kept as its Python `repr` (no arithmetic is ever done on it). -/
inductive PyVal
  | int (n : Int)
  | float (r : String)
  | str (s : String)
deriving Repr, DecidableEq

/-- `str(v)` for the values above. -/
def pyStr : PyVal → String
  | PyVal.int n => toString n
  | PyVal.float r => r
  | PyVal.str s => s

/-- `DEFAULT_CPLEX_OPTIONS` from `models.py` (the float `1e-6` is kept as
its Python repr `1e-06`). -/
def DEFAULT_CPLEX_OPTIONS : List (String × PyVal) :=
  [("advind", PyVal.int 0),
   ("lpmethod", PyVal.int 2),
   ("threads", PyVal.int 4),
   ("epopt", PyVal.float "1e-06")]

/-! ## ixmp item declarations (`MESSAGE_ITEMS`) -/

/-- Values occurring in an ixmp item declaration: a string (`ix_type`) or a
list of strings (`idx_sets`, `idx_names`). -/
inductive ItemVal
  | s (v : String)
  | ls (v : List String)
deriving Repr, DecidableEq

/-- `_idx_common` from `models.py`. -/
def idx_common : List String := ["node", "technology", "level", "year", "time"]

/-- `MESSAGE_ITEMS` from `models.py`, transcribed entry by entry. -/
def MESSAGE_ITEMS : List (String × List (String × ItemVal)) :=
  [("level_storage", [("ix_type", ItemVal.s "set")]),
   ("storage_tec", [("ix_type", ItemVal.s "set")]),
   ("map_tec_storage",
     [("ix_type", ItemVal.s "set"),
      ("idx_sets", ItemVal.ls ["technology", "storage_tec"])]),
   ("time_seq",
     [("ix_type", ItemVal.s "par"),
      ("idx_sets", ItemVal.ls ["lvl_temporal", "time"])]),
   ("relation_storage",
     [("ix_type", ItemVal.s "par"),
      ("idx_sets", ItemVal.ls ["node", "technology", "level", "year", "year",
                               "time", "time"]),
      ("idx_names", ItemVal.ls ["node", "technology", "level", "year_first",
                                "year_last", "time_first", "time_last"])]),
   ("bound_storage_lo",
     [("ix_type", ItemVal.s "par"), ("idx_sets", ItemVal.ls idx_common)]),
   ("bound_storage_up",
     [("ix_type", ItemVal.s "par"), ("idx_sets", ItemVal.ls idx_common)]),
   ("storage_loss",
     [("ix_type", ItemVal.s "par"), ("idx_sets", ItemVal.ls idx_common)]),
   ("init_storage",
     [("ix_type", ItemVal.s "par"), ("idx_sets", ItemVal.ls idx_common)])]

/-- The `ix_type` field of an item declaration, when it is a string. -/
def ixTypeOf (d : List (String × ItemVal)) : Option String :=
  match dget d "ix_type" with
  | some (ItemVal.s t) => some t
  | _ => none

/-- The `idx_sets` field of an item declaration, when it is a list. -/
def idxSetsOf (d : List (String × ItemVal)) : Option (List String) :=
  match dget d "idx_sets" with
  | some (ItemVal.ls l) => some l
  | _ => none

/-- The `idx_names` field of an item declaration, when it is a list. -/
def idxNamesOf (d : List (String × ItemVal)) : Option (List String) :=
  match dget d "idx_names" with
  | some (ItemVal.ls l) => some l
  | _ => none

/-- `GAMSModel.initialize` passes exactly `MESSAGE_ITEMS` to the platform's
`initialize_items`; this definition is the argument of that call (the
platform itself is an external collaborator). -/
def GAMSModel.initializeItems : List (String × List (String × ItemVal)) :=
  MESSAGE_ITEMS

/-- The `MESSAGE` subclass overrides nothing, so it inherits
`GAMSModel.initialize` unchanged. -/
def MESSAGE.initializeItems : List (String × List (String × ItemVal)) :=
  GAMSModel.initializeItems

/-! ## Default model options (`GAMSModel.defaults`) -/

/-- `_template(*parts)` from `models.py`:
`str(Path('{model_dir}', *parts))`, i.e. the parts joined with `/` under
the `{model_dir}` placeholder. -/
def pathTemplate (parts : List String) : String :=
  String.intercalate "/" ("{model_dir}" :: parts)

/-- Values occurring in the `defaults` option mapping. -/
inductive DefVal
  | s (v : String)
  | l (v : List String)
  | b (v : Bool)
  | p (v : String)
deriving Repr, DecidableEq

/-- The MESSAGE-specific first map of the `defaults` `ChainMap` in
`models.py`.  `fileParent` stands for `Path(__file__).parent`. -/
def GAMSModel.messageDefaults (fileParent : String) : List (String × DefVal) :=
  [("model_dir", DefVal.p (fileParent ++ "/model")),
   ("model_file", DefVal.s (pathTemplate ["{model_name}_run.gms"])),
   ("in_file", DefVal.s (pathTemplate ["data", "MsgData_{case}.gdx"])),
   ("out_file", DefVal.s (pathTemplate ["output", "MsgOutput_{case}.gdx"])),
   ("solve_args",
     DefVal.l ["--in=\"{in_file}\"",
               "--out=\"{out_file}\"",
               "--iter=\"" ++ pathTemplate ["output", "MsgIterationReport_{case}.gdx"]
                 ++ "\""]),
   ("use_temp_dir", DefVal.b false)]

/-- `GAMSModel.defaults` as a lookup: a `ChainMap` of the MESSAGE-specific
map over the base `ixmp.model.gams.GAMSModel.defaults` (the base map is an
external collaborator, so it is a parameter). -/
def GAMSModel.defaults (fileParent : String) (base : List (String × DefVal))
    (k : String) : Option DefVal :=
  (dget (GAMSModel.messageDefaults fileParent) k).orElse
    (fun _ => dget base k)

/-! ## Regular-expression fragments used by the source

Only two concrete patterns occur: `KEY "(.+?)"` (in `read_version`) and
`^GAMS ([\d\.]+)\s*Copyright` with `re.MULTILINE` (in `gams_release`).
Both are implemented directly over `List Char`. -/

/-- Match a literal at the head of the input; returns the remainder. -/
def litMatch : List Char → List Char → Option (List Char)
  | [], s => some s
  | _, [] => none
  | l :: ls, c :: cs => if l = c then litMatch ls cs else none

/-- Python `\s` (the ASCII cases). -/
def isPySpace (c : Char) : Bool :=
  c = ' ' || c = '\t' || c = '\n' || c = '\r' || c = '\x0b' || c = '\x0c'

/-- Try the pattern `LIT(.+?)"` at the current position: the literal, then
a non-empty lazy capture (no `"`, and no newline since `.` does not match
newlines), then a closing quote. -/
def matchQuotedAt (lit : List Char) (s : List Char) : Option (List Char) :=
  match litMatch lit s with
  | none => none
  | some rest =>
      let run := rest.takeWhile (fun c => decide (c ≠ '"') && decide (c ≠ '\n'))
      if run.isEmpty then none
      else
        match rest.drop run.length with
        | '"' :: _ => some run
        | _ => none

/-- `re.search` for the pattern `LIT(.+?)"`: scan positions left to right,
return the first capture. -/
def reSearchQuoted (lit : List Char) : List Char → Option (List Char)
  | [] => matchQuotedAt lit []
  | c :: rest =>
      match matchQuotedAt lit (c :: rest) with
      | some g => some g
      | none => reSearchQuoted lit rest

/-- `re.search('KEY "(.+?)"', s).group(1)`, as used by `read_version`. -/
def reSearchVersion (key : String) (s : String) : Option String :=
  (reSearchQuoted (key ++ " \"").data s.data).map (fun cs => String.mk cs)

/-- The text `read_version` operates on: the `version.gms` under the
configured `message model dir` when that file exists, else the copy
packaged next to the module. -/
def versionText (cfgVersionGms : Option String) (pkgVersionGms : String) : String :=
  match cfgVersionGms with
  | some t => t
  | none => pkgVersionGms

/-- `GAMSModel.read_version`: pick the version file, then assemble
`MAJOR.MINOR.PATCH` from the first matches of the three patterns
`VERSION_MAJOR "(.+?)"`, `VERSION_MINOR "(.+?)"`, `VERSION_PATCH "(.+?)"`.
A failed search is Python's `AttributeError` on `.group`, modelled as
`none`. -/
def GAMSModel.readVersion (cfgVersionGms : Option String)
    (pkgVersionGms : String) : Option String :=
  let s := versionText cfgVersionGms pkgVersionGms
  match reSearchVersion "VERSION_MAJOR" s, reSearchVersion "VERSION_MINOR" s,
        reSearchVersion "VERSION_PATCH" s with
  | some mj, some mn, some pt => some (mj ++ "." ++ mn ++ "." ++ pt)
  | _, _, _ => none

/-- Try `GAMS ([\d\.]+)\s*Copyright` at the current position (which the
caller guarantees is a line start, for the `^` anchor under
`re.MULTILINE`). -/
def matchGamsAt (s : List Char) : Option (List Char) :=
  match litMatch "GAMS ".data s with
  | none => none
  | some rest =>
      let run := rest.takeWhile (fun c => c.isDigit || c = '.')
      if run.isEmpty then none
      else
        match litMatch "Copyright".data ((rest.drop run.length).dropWhile isPySpace) with
        | some _ => some run
        | none => none

/-- Scan the positions after each character; positions following a newline
are line starts, where the anchored pattern may match. -/
def gamsSearchAux : List Char → Option (List Char)
  | [] => none
  | c :: rest =>
      if c = '\n' then
        match matchGamsAt rest with
        | some g => some g
        | none => gamsSearchAux rest
      else gamsSearchAux rest

/-- `re.search(r'^GAMS ([\d\.]+)\s*Copyright', output, re.MULTILINE)`:
position 0 is a line start; every later line start follows a newline. -/
def gamsSearch (s : List Char) : Option (List Char) :=
  match matchGamsAt s with
  | some g => some g
  | none => gamsSearchAux s

/-! ## `gams_release` -/

/-- External effects performed by `gams_release`. -/
inductive GEvent
  | mkdtemp
  | writeText (path content : String)
  | execute (args : List String)
  | unlink (path : String)
  | rmdir
deriving Repr, DecidableEq

/-- `gams_release()`: write a no-op program, run `gams`, clean up, scrape
the version from the captured console output (a parameter, since the GAMS
binary is external). -/
def gams_release (output : String) : List GEvent × Option String :=
  ([GEvent.mkdtemp,
    GEvent.writeText "null.gms" "$exit;",
    GEvent.execute ["gams", "null", "-LogOption=3"],
    GEvent.unlink "null.gms",
    GEvent.unlink "null.lst",
    GEvent.rmdir],
   (gamsSearch output.data).map (fun cs => String.mk cs))

/-! ## `GAMSModel.run` -/

/-- External effects performed by `GAMSModel.run`. -/
inductive Event
  | writeText (path content : String)
  | runEngine
  | unlink (path : String)
deriving Repr, DecidableEq

/-- The content written to `cplex.opt`: one `key = value` line per entry of
`cplex_opts`, joined by newlines. -/
def optContent (opts : List (String × PyVal)) : String :=
  String.intercalate "\n" (opts.map (fun kv => kv.1 ++ " = " ++ pyStr kv.2))

/-- Python `try: body finally: fin` over traced computations: the cleanup
events happen whether the body returned or raised, and the body's outcome
is then propagated. -/
def tryFinallyE {α : Type} (body : List Event × Except String α)
    (fin : List Event) : List Event × Except String α :=
  (body.1 ++ fin, body.2)

/-- `super().run(scenario)`: the parent class shells out to GAMS; its
outcome (a result, or a raised exception) is a parameter. -/
def superRun (outcome : Except String PyVal) : List Event × Except String PyVal :=
  ([Event.runEngine], outcome)

/-- `GAMSModel.run`: write `cplex.opt` under `model_dir`, run the engine,
and unlink the options file in a `finally:` block. -/
def GAMSModel.run (model_dir : String) (cplex_opts : List (String × PyVal))
    (outcome : Except String PyVal) : List Event × Except String PyVal :=
  let optfile := model_dir ++ "/cplex.opt"
  let pre := [Event.writeText optfile (optContent cplex_opts)]
  let body := tryFinallyE (superRun outcome) [Event.unlink optfile]
  (pre ++ body.1, body.2)

/-- The file-system path an event touches, if any. -/
def eventPath : Event → Option String
  | Event.writeText p _ => some p
  | Event.unlink p => some p
  | Event.runEngine => none

/-! ## `GAMSModel.__init__` (value level) -/

/-- A model-option value: a scalar, or a nested mapping (as passed for
`solve_options`). -/
inductive OptVal
  | v (x : PyVal)
  | d (x : List (String × PyVal))
deriving Repr, DecidableEq

/-- What `GAMSModel.__init__` computes: the instance's `cplex_opts` and the
options forwarded to the parent constructor. -/
structure InitResult where
  cplex_opts : List (String × PyVal)
  superOptions : List (String × OptVal)
deriving Repr, DecidableEq

/-- `GAMSModel.__init__`: `setdefault('model_dir', ...)`, then
`cplex_opts = copy(DEFAULT_CPLEX_OPTIONS)` updated with
`model_options.pop('solve_options', {})`, then `super().__init__` with the
remaining options.  A non-mapping `solve_options` value makes
`dict.update` raise `TypeError`. -/
def GAMSModel.init (messageModelDir : OptVal)
    (model_options : List (String × OptVal)) : Except String InitResult :=
  let mo := if dcontains model_options "model_dir" then model_options
            else dset model_options "model_dir" messageModelDir
  match dget mo "solve_options" with
  | some (OptVal.d u) =>
      Except.ok ⟨dupd DEFAULT_CPLEX_OPTIONS u, derase mo "solve_options"⟩
  | some (OptVal.v _) =>
      Except.error "TypeError: cplex_opts.update() needs a mapping"
  | none =>
      Except.ok ⟨dupd DEFAULT_CPLEX_OPTIONS [], derase mo "solve_options"⟩

/-! ## `GAMSModel.__init__` (heap level, for the frame effect on
`DEFAULT_CPLEX_OPTIONS`)

The module-level `DEFAULT_CPLEX_OPTIONS` dictionary lives in heap cell 0;
each construction allocates a fresh cell via `copy()` and then mutates
only that fresh cell via `.update(...)`. -/

/-- The `cplex_opts`-related part of `GAMSModel.__init__` as a heap
operation: `self.cplex_opts = copy(<cell defAddr>)`, then
`self.cplex_opts.update(solve)` in place. -/
def GAMSModel.initAlloc (defAddr : Nat) (h : Heap PyVal)
    (solve : List (String × PyVal)) : Heap PyVal × Nat :=
  let p := Heap.alloc h (Heap.read h defAddr)
  (Heap.write p.1 p.2 (dupd (Heap.read p.1 p.2) solve), p.2)

/-- Client operations: construct an instance (with some `solve_options`),
or mutate an existing instance's `cplex_opts` in place. -/
inductive CplexOp
  | construct (solve : List (String × PyVal))
  | setItem (i : Nat) (k : String) (v : PyVal)

/-- Heap plus the addresses of the `cplex_opts` of instances constructed
so far. -/
structure CplexState where
  heap : Heap PyVal
  insts : List Nat

/-- Module load time: only `DEFAULT_CPLEX_OPTIONS` is allocated (cell 0). -/
def initialCplexState : CplexState := ⟨⟨[DEFAULT_CPLEX_OPTIONS]⟩, []⟩

/-- One client operation. -/
def stepCplex (s : CplexState) : CplexOp → CplexState
  | CplexOp.construct solve =>
      let p := GAMSModel.initAlloc 0 s.heap solve
      ⟨p.1, s.insts ++ [p.2]⟩
  | CplexOp.setItem i k v =>
      match nthOpt s.insts i with
      | some a => ⟨Heap.write s.heap a (dset (Heap.read s.heap a) k v), s.insts⟩
      | none => s

/-- Any interleaving of constructions and instance mutations. -/
def runCplex (ops : List CplexOp) : CplexState :=
  ops.foldl stepCplex initialCplexState

/-! ## `MACRO` / `MESSAGE_MACRO` version check -/

/-- Python `<` on strings, lexicographic by code point. -/
def pyStrLtL : List Char → List Char → Bool
  | [], [] => false
  | [], _ :: _ => true
  | _ :: _, [] => false
  | a :: as, b :: bs =>
      if a.val < b.val then true
      else if b.val < a.val then false
      else pyStrLtL as bs

/-- Python `a < b` for strings. -/
def pyStrLt (a b : String) : Bool := pyStrLtL a.data b.data

/-- `MACRO.GAMS_min_version` from `models.py`. -/
def MACRO.GAMS_min_version : String := "24.8.1"

/-- `MACRO.name`. -/
def MACRO.className : String := "MACRO"

/-- `MESSAGE_MACRO.name`. -/
def MESSAGE_MACRO.className : String := "MESSAGE-MACRO"

/-- The body of `MACRO.__init__` (shared by `MESSAGE_MACRO`, which only
overrides `name`): raise `RuntimeError` when
`gams_release() < self.GAMS_min_version`, a Python *string* comparison. -/
def MACRO.initCheck (name version : String) : Except String Unit :=
  if pyStrLt version MACRO.GAMS_min_version then
    Except.error (name ++ " requires GAMS >= " ++ MACRO.GAMS_min_version
                  ++ "; found " ++ version)
  else Except.ok ()

/-- `MACRO.__init__` with the engine's reported release as parameter. -/
def MACRO.init (version : String) : Except String Unit :=
  MACRO.initCheck MACRO.className version

/-- `MESSAGE_MACRO.__init__` (inherited from `MACRO`; `self.name` resolves
to the subclass attribute). -/
def MESSAGE_MACRO.init (version : String) : Except String Unit :=
  MACRO.initCheck MESSAGE_MACRO.className version

/-- Split a version string at the dots. -/
def splitDots : List Char → List (List Char)
  | [] => [[]]
  | c :: rest =>
      let r := splitDots rest
      if c = '.' then [] :: r
      else
        match r with
        | [] => [[c]]
        | h :: t => (c :: h) :: t

/-- Digits of one version component as a number. -/
def chunkToNat (cs : List Char) : Nat :=
  cs.foldl (fun a c => a * 10 + (c.toNat - 48)) 0

/-- The numeric components of a dotted version string. -/
def versionComponents (s : String) : List Nat :=
  (splitDots s.data).map chunkToNat

/-- Lexicographic order on component lists. -/
def natListLt : List Nat → List Nat → Bool
  | [], [] => false
  | [], _ :: _ => true
  | _ :: _, [] => false
  | a :: as, b :: bs =>
      if a < b then true else if b < a then false else natListLt as bs

/-- Modelled from the claim's wording, for comparison with the code:
release `a` is *earlier* than release `b` in numeric version order
(componentwise on the dotted numbers). -/
def specVersionEarlier (a b : String) : Bool :=
  natListLt (versionComponents a) (versionComponents b)

/-! ## `MACRO.initialize` (heap level, for the frame effect on
`MACRO_ITEMS`)

`MACRO_ITEMS` itself is defined in `message_ix/macro.py`, which is not part
of this fragment, so the table is an arbitrary association list `tbl`; what
`models.py` contributes is `deepcopy` + popping `idx_sets` from six named
items.  The outer mapping holds the heap addresses of the (mutable) item
dictionaries. -/

/-- The six item names whose `idx_sets` entry is popped. -/
def macroPopNames : List String :=
  ["C", "COST_NODAL", "COST_NODAL_NET", "DEMAND", "GDP", "I"]

/-- Heap of item dictionaries plus the module-level `MACRO_ITEMS` mapping
(name to cell address). -/
structure MacroState where
  heap : Heap ItemVal
  table : List (String × Nat)
deriving Repr, DecidableEq

/-- Module load time: one cell per item of the source table, addressed in
order. -/
def macroSetup (tbl : List (String × List (String × ItemVal))) : MacroState :=
  ⟨⟨tbl.map Prod.snd⟩, reEnum 0 tbl⟩

/-- `deepcopy` of the outer mapping: allocate a fresh cell for every item
dictionary (left to right), keeping the names. -/
def deepcopyTable (h : Heap ItemVal) :
    List (String × Nat) → Heap ItemVal × List (String × Nat)
  | [] => (h, [])
  | (nm, a) :: rest =>
      let p := Heap.alloc h (Heap.read h a)
      let q := deepcopyTable p.1 rest
      (q.1, (nm, p.2) :: q.2)

/-- `for name in ...: items[name].pop('idx_sets')` — a missing item or a
missing `idx_sets` key is Python's `KeyError`. -/
def popIdxSets (items : List (String × Nat)) :
    Heap ItemVal → List String → Except String (Heap ItemVal)
  | h, [] => Except.ok h
  | h, nm :: rest =>
      match dget items nm with
      | none => Except.error ("KeyError: " ++ nm)
      | some a =>
          if dcontains (Heap.read h a) "idx_sets" then
            popIdxSets items
              (Heap.write h a (derase (Heap.read h a) "idx_sets")) rest
          else Except.error "KeyError: idx_sets"

/-- `MACRO.initialize`: deep-copy `MACRO_ITEMS`, pop `idx_sets` from the
six items, and hand the copy to `initialize_items` (returned here as the
second component). -/
def MACRO.initializeH (s : MacroState) :
    Except String (MacroState × List (String × Nat)) :=
  let p := deepcopyTable s.heap s.table
  match popIdxSets p.2 p.1 macroPopNames with
  | Except.ok h2 => Except.ok (⟨h2, s.table⟩, p.2)
  | Except.error e => Except.error e

/-- `n` successive calls of `MACRO.initialize`. -/
def macroIterate : Nat → MacroState → Except String MacroState
  | 0, s => Except.ok s
  | n + 1, s =>
      match MACRO.initializeH s with
      | Except.ok r => macroIterate n r.1
      | Except.error e => Except.error e

/-- Decidable form of "the table has item `nm` and it carries an
`idx_sets` entry". -/
def hasIdxSets (tbl : List (String × List (String × ItemVal)))
    (nm : String) : Bool :=
  match dget tbl nm with
  | some d => dcontains d "idx_sets"
  | none => false

/-- `isOk` for `Except`. -/
def isOkE {ε α : Type} : Except ε α → Bool
  | Except.ok _ => true
  | Except.error _ => false

/-! ## Concrete inputs used to exercise the theorems -/

/-- A concrete stand-in for `MACRO_ITEMS` (six popped items plus one
other), used to exercise the `MACRO.initialize` theorem. -/
def macroTblW : List (String × List (String × ItemVal)) :=
  [("C", [("ix_type", ItemVal.s "var"), ("idx_sets", ItemVal.ls ["node", "year"])]),
   ("COST_NODAL", [("idx_sets", ItemVal.ls ["node", "year"])]),
   ("COST_NODAL_NET", [("idx_sets", ItemVal.ls ["node", "year"])]),
   ("DEMAND", [("idx_sets", ItemVal.ls ["node", "year"])]),
   ("GDP", [("idx_sets", ItemVal.ls ["node", "year"])]),
   ("I", [("idx_sets", ItemVal.ls ["node", "year"])]),
   ("aeei", [("ix_type", ItemVal.s "par"),
             ("idx_sets", ItemVal.ls ["node", "sector", "year"])])]

/-- A concrete stand-in for the base `ixmp` defaults, used to exercise the
`ChainMap` theorem. -/
def baseDefaultsW : List (String × DefVal) :=
  [("model_file", DefVal.s "base-model-file"),
   ("case", DefVal.s "{scenario}_{model}"),
   ("use_temp_dir", DefVal.b true)]

/-! # Lemmas about the dictionary model -/

theorem dget_dset_self {V : Type} (d : List (String × V)) (k : String) (v : V) :
    dget (dset d k v) k = some v := by
  induction d with
  | nil => simp [dset, dget]
  | cons p rest ih =>
      obtain ⟨k', v'⟩ := p
      by_cases h : k' = k
      · simp [dset, if_pos h, dget]
      · simp only [dset, if_neg h, dget, if_neg h]
        exact ih

theorem dget_dset_ne {V : Type} (d : List (String × V)) (k k' : String) (v : V)
    (h : k' ≠ k) : dget (dset d k v) k' = dget d k' := by
  have h' : k ≠ k' := fun hh => h hh.symm
  induction d with
  | nil => simp only [dset, dget, if_neg h']
  | cons p rest ih =>
      obtain ⟨k0, v0⟩ := p
      by_cases h0 : k0 = k
      · subst h0
        simp only [dset, if_pos rfl, dget, if_neg h']
      · simp only [dset, if_neg h0]
        by_cases h1 : k0 = k'
        · simp only [dget, if_pos h1]
        · simp only [dget, if_neg h1]
          exact ih

theorem dget_mem_dkeys {V : Type} (d : List (String × V)) (k : String) (v : V)
    (h : dget d k = some v) : k ∈ dkeys d := by
  induction d with
  | nil => simp [dget] at h
  | cons p rest ih =>
      obtain ⟨k0, v0⟩ := p
      by_cases h0 : k0 = k
      · simp [dkeys, h0]
      · simp only [dget, if_neg h0] at h
        simp only [dkeys, List.map_cons, List.mem_cons]
        exact Or.inr (ih h)

theorem dget_none_of_not_mem {V : Type} (d : List (String × V)) (k : String)
    (h : k ∉ dkeys d) : dget d k = none := by
  cases hh : dget d k with
  | none => rfl
  | some v => exact absurd (dget_mem_dkeys d k v hh) h

theorem dget_isSome_of_mem {V : Type} (d : List (String × V)) (k : String)
    (h : k ∈ dkeys d) : (dget d k).isSome = true := by
  induction d with
  | nil => simp [dkeys] at h
  | cons p rest ih =>
      obtain ⟨k0, v0⟩ := p
      by_cases h0 : k0 = k
      · simp [dget, h0]
      · simp only [dkeys, List.map_cons, List.mem_cons] at h
        rcases h with h | h
        · exact absurd h.symm h0
        · simp only [dget, if_neg h0]
          exact ih h

theorem dupd_cons {V : Type} (d : List (String × V)) (p : String × V)
    (u : List (String × V)) : dupd d (p :: u) = dupd (dset d p.1 p.2) u := rfl

theorem dget_dupd_none {V : Type} (d u : List (String × V)) (k : String)
    (h : dget u k = none) : dget (dupd d u) k = dget d k := by
  induction u generalizing d with
  | nil => rfl
  | cons p u' ih =>
      obtain ⟨k0, v0⟩ := p
      by_cases h0 : k0 = k
      · simp [dget, if_pos h0] at h
      · simp only [dget, if_neg h0] at h
        rw [dupd_cons, ih _ h]
        exact dget_dset_ne _ _ _ _ (fun hh => h0 hh.symm)

theorem dget_dupd_some {V : Type} (d u : List (String × V)) (k : String) (v : V)
    (hu : nodupKeys u) (h : dget u k = some v) : dget (dupd d u) k = some v := by
  induction u generalizing d with
  | nil => simp [dget] at h
  | cons p u' ih =>
      obtain ⟨k0, v0⟩ := p
      have hu2 : k0 ∉ dkeys u' ∧ nodupKeys u' := by
        simpa [dkeys, nodupKeys] using hu
      by_cases h0 : k0 = k
      · subst h0
        simp [dget] at h
        subst h
        have hnone : dget u' k0 = none := dget_none_of_not_mem u' k0 hu2.1
        rw [dupd_cons, dget_dupd_none _ _ _ hnone]
        exact dget_dset_self _ _ _
      · simp only [dget, if_neg h0] at h
        rw [dupd_cons]
        exact ih _ hu2.2 h

theorem dget_derase_self {V : Type} (d : List (String × V)) (k : String)
    (hd : nodupKeys d) : dget (derase d k) k = none := by
  induction d with
  | nil => rfl
  | cons p rest ih =>
      obtain ⟨k0, v0⟩ := p
      have hd2 : k0 ∉ dkeys rest ∧ nodupKeys rest := by
        simpa [dkeys, nodupKeys] using hd
      by_cases h0 : k0 = k
      · subst h0
        simp only [derase, if_pos rfl]
        exact dget_none_of_not_mem rest k0 hd2.1
      · simp only [derase, if_neg h0, dget, if_neg h0]
        exact ih hd2.2

theorem dkeys_dset {V : Type} (d : List (String × V)) (k : String) (v : V) :
    dkeys (dset d k v) = if dcontains d k then dkeys d else dkeys d ++ [k] := by
  induction d with
  | nil => simp [dset, dkeys, dcontains, dget]
  | cons p rest ih =>
      obtain ⟨k0, v0⟩ := p
      by_cases h0 : k0 = k
      · simp [dset, if_pos h0, dkeys, dcontains, dget, h0]
      · have hcont : dcontains ((k0, v0) :: rest) k = dcontains rest k := by
          simp [dcontains, dget, if_neg h0]
        rw [hcont]
        simp only [dset, if_neg h0, dkeys, List.map_cons]
        by_cases hc : dcontains rest k
        · rw [if_pos hc]
          rw [if_pos hc] at ih
          simp only [dkeys] at ih
          rw [ih]
        · rw [if_neg hc]
          rw [if_neg hc] at ih
          simp only [dkeys] at ih
          rw [ih, List.cons_append]

theorem nodupKeys_dset {V : Type} (d : List (String × V)) (k : String) (v : V)
    (hd : nodupKeys d) : nodupKeys (dset d k v) := by
  unfold nodupKeys at hd ⊢
  rw [dkeys_dset]
  by_cases hc : dcontains d k
  · simpa [hc] using hd
  · have hk : k ∉ dkeys d := by
      intro hmem
      have := dget_isSome_of_mem d k hmem
      simp [dcontains, this] at hc
    rw [if_neg hc]
    exact List.Nodup.append hd (List.nodup_singleton k) (by simpa using hk)

/-! # Lemmas about positional access and enumeration -/

theorem nthOpt_lt_length {α : Type} (l : List α) (n : Nat) (a : α)
    (h : nthOpt l n = some a) : n < l.length := by
  induction l generalizing n with
  | nil => simp [nthOpt] at h
  | cons x rest ih =>
      cases n with
      | zero => simp
      | succ m =>
          simp only [nthOpt] at h
          simpa using ih m h

theorem nthOpt_append_lt {α : Type} (l l' : List α) (n : Nat)
    (h : n < l.length) : nthOpt (l ++ l') n = nthOpt l n := by
  induction l generalizing n with
  | nil => simp at h
  | cons x rest ih =>
      cases n with
      | zero => rfl
      | succ m =>
          simp only [List.cons_append, nthOpt]
          exact ih m (by simpa using h)

theorem nthOpt_append_add {α : Type} (l l' : List α) (n : Nat) :
    nthOpt (l ++ l') (l.length + n) = nthOpt l' n := by
  induction l with
  | nil => simp [nthOpt]
  | cons x rest ih =>
      have : (x :: rest).length + n = (rest.length + n) + 1 := by
        simp [List.length_cons]; omega
      rw [this]
      simpa [nthOpt] using ih

theorem setNth_length {α : Type} (l : List α) (n : Nat) (d : α) :
    (setNth l n d).length = l.length := by
  induction l generalizing n with
  | nil => rfl
  | cons x rest ih =>
      cases n with
      | zero => rfl
      | succ m => simp [setNth, ih]

theorem nthOpt_setNth_self {α : Type} (l : List α) (n : Nat) (d : α)
    (h : n < l.length) : nthOpt (setNth l n d) n = some d := by
  induction l generalizing n with
  | nil => simp at h
  | cons x rest ih =>
      cases n with
      | zero => rfl
      | succ m =>
          simp only [setNth, nthOpt]
          exact ih m (by simpa using h)

theorem nthOpt_setNth_ne {α : Type} (l : List α) (m n : Nat) (d : α)
    (h : m ≠ n) : nthOpt (setNth l m d) n = nthOpt l n := by
  induction l generalizing m n with
  | nil => rfl
  | cons x rest ih =>
      cases m with
      | zero =>
          cases n with
          | zero => exact absurd rfl h
          | succ n' => rfl
      | succ m' =>
          cases n with
          | zero => rfl
          | succ n' =>
              simp only [setNth, nthOpt]
              exact ih m' n' (fun hh => h (by omega))

theorem nthOpt_map {α β : Type} (f : α → β) (l : List α) (n : Nat) :
    nthOpt (l.map f) n = (nthOpt l n).map f := by
  induction l generalizing n with
  | nil => rfl
  | cons x rest ih =>
      cases n with
      | zero => rfl
      | succ m => simpa [nthOpt] using ih m

theorem reEnum_length {α : Type} (i : Nat) (t : List (String × α)) :
    (reEnum i t).length = t.length := by
  induction t generalizing i with
  | nil => rfl
  | cons p rest ih =>
      obtain ⟨nm, a⟩ := p
      simp [reEnum, ih]

theorem reEnum_reEnum {α : Type} (i j : Nat) (t : List (String × α)) :
    reEnum i (reEnum j t) = reEnum i t := by
  induction t generalizing i j with
  | nil => rfl
  | cons p rest ih =>
      obtain ⟨nm, a⟩ := p
      simp [reEnum, ih]

theorem dget_reEnum {α : Type} (i : Nat) (t : List (String × α)) (nm : String) :
    dget (reEnum i t) nm = (posOf t nm).map (fun j => i + j) := by
  induction t generalizing i with
  | nil => rfl
  | cons p rest ih =>
      obtain ⟨k0, a0⟩ := p
      by_cases h0 : k0 = nm
      · simp [reEnum, dget, posOf, if_pos h0]
      · simp only [reEnum, dget, if_neg h0, posOf]
        rw [ih (i + 1)]
        cases hp : posOf rest nm with
        | none => rfl
        | some j => simp [Option.map]; omega

theorem posOf_nthOpt {α : Type} (t : List (String × α)) (nm : String) (j : Nat)
    (h : posOf t nm = some j) :
    ∃ v, nthOpt t j = some (nm, v) ∧ dget t nm = some v := by
  induction t generalizing j with
  | nil => simp [posOf] at h
  | cons p rest ih =>
      obtain ⟨k0, v0⟩ := p
      by_cases h0 : k0 = nm
      · subst h0
        simp [posOf] at h
        subst h
        exact ⟨v0, rfl, by simp [dget]⟩
      · simp only [posOf, if_neg h0] at h
        cases hp : posOf rest nm with
        | none => simp [hp] at h
        | some j' =>
            rw [hp] at h
            simp only [Option.map, Option.some.injEq] at h
            subst h
            obtain ⟨v, hv1, hv2⟩ := ih j' hp
            exact ⟨v, by simpa [nthOpt] using hv1, by simpa [dget, if_neg h0] using hv2⟩

theorem dget_posOf {α : Type} (t : List (String × α)) (nm : String) (v : α)
    (h : dget t nm = some v) :
    ∃ j, posOf t nm = some j ∧ nthOpt t j = some (nm, v) := by
  induction t with
  | nil => simp [dget] at h
  | cons p rest ih =>
      obtain ⟨k0, v0⟩ := p
      by_cases h0 : k0 = nm
      · subst h0
        simp [dget] at h
        subst h
        exact ⟨0, by simp [posOf], rfl⟩
      · simp only [dget, if_neg h0] at h
        obtain ⟨j, hj1, hj2⟩ := ih h
        exact ⟨j + 1, by simp [posOf, if_neg h0, hj1], by simpa [nthOpt] using hj2⟩

theorem posOf_lt_length {α : Type} (t : List (String × α)) (nm : String) (j : Nat)
    (h : posOf t nm = some j) : j < t.length := by
  obtain ⟨v, hv, _⟩ := posOf_nthOpt t nm j h
  exact nthOpt_lt_length t j _ hv

theorem mem_reEnum {α : Type} (i : Nat) (t : List (String × α))
    (p : String × Nat) (h : p ∈ reEnum i t) : i ≤ p.2 ∧ p.2 < i + t.length := by
  induction t generalizing i with
  | nil => simp [reEnum] at h
  | cons q rest ih =>
      obtain ⟨nm, a⟩ := q
      simp only [reEnum, List.mem_cons] at h
      rcases h with h | h
      · subst h
        simp
      · have := ih (i + 1) h
        constructor
        · omega
        · simp only [List.length_cons]
          omega

/-! # Helper lemmas for the pattern matchers -/

theorem all_takeWhile {α : Type} (p : α → Bool) (l : List α) :
    (l.takeWhile p).all p = true := by
  induction l with
  | nil => rfl
  | cons x rest ih =>
      by_cases h : p x
      · simp [List.takeWhile, h, ih]
      · simp [List.takeWhile, h]

theorem matchGamsAt_all (s g : List Char)
    (h : matchGamsAt s = some g) :
    g.all (fun c => c.isDigit || c = '.') = true := by
  unfold matchGamsAt at h
  cases hl : litMatch "GAMS ".data s with
  | none => rw [hl] at h; exact absurd h (by simp)
  | some rest =>
      rw [hl] at h
      simp only at h
      by_cases he : (rest.takeWhile (fun c => c.isDigit || c = '.')).isEmpty
      · rw [if_pos he] at h; exact absurd h (by simp)
      · rw [if_neg he] at h
        cases hc : litMatch "Copyright".data
            ((rest.drop (rest.takeWhile (fun c => c.isDigit || c = '.')).length).dropWhile
              isPySpace) with
        | none => rw [hc] at h; exact absurd h (by simp)
        | some r2 =>
            rw [hc] at h
            simp only [Option.some.injEq] at h
            subst h
            exact all_takeWhile _ rest

theorem gamsSearchAux_all (s g : List Char)
    (h : gamsSearchAux s = some g) :
    g.all (fun c => c.isDigit || c = '.') = true := by
  induction s with
  | nil => simp [gamsSearchAux] at h
  | cons c rest ih =>
      unfold gamsSearchAux at h
      by_cases hn : c = '\n'
      · rw [if_pos hn] at h
        cases hm : matchGamsAt rest with
        | some g' =>
            rw [hm] at h
            simp only [Option.some.injEq] at h
            subst h
            exact matchGamsAt_all rest _ hm
        | none =>
            rw [hm] at h
            exact ih h
      · rw [if_neg hn] at h
        exact ih h

theorem gamsSearch_all (s g : List Char)
    (h : gamsSearch s = some g) :
    g.all (fun c => c.isDigit || c = '.') = true := by
  unfold gamsSearch at h
  cases hm : matchGamsAt s with
  | some g' =>
      rw [hm] at h
      simp only [Option.some.injEq] at h
      subst h
      exact matchGamsAt_all s _ hm
  | none =>
      rw [hm] at h
      exact gamsSearchAux_all s g h

/-! # The claims -/

/-- C1 (counterexample): the claim says `RuntimeError` is raised exactly
when the installed release is *earlier than* 24.8.1, and that a release
that is 24.8.1 *or later* constructs without error.  Release `100.0.0` is
later than `24.8.1` in numeric version order, yet `MACRO.__init__` raises,
because the code compares the version strings with Python string `<`. -/
theorem claim_C1_counterexample :
    specVersionEarlier "100.0.0" "24.8.1" = false ∧
    pyStrLt "100.0.0" MACRO.GAMS_min_version = true ∧
    isOkE (MACRO.init "100.0.0") = false := by
  refine ⟨by decide, by decide, ?_⟩
  rfl

/-- C1 (amended): constructing a `MACRO` (and, by inheritance, a
`MESSAGE_MACRO`) model raises `RuntimeError` exactly when the string
returned by `gams_release()` is smaller than the minimum version string
`24.8.1` under Python's lexicographic string comparison (which agrees with
numeric version ordering only when no component crosses a digit-count
boundary); otherwise construction proceeds.  The error message names the
model and both versions. -/
theorem claim_C1 (version : String) :
    (isOkE (MACRO.init version) = false ↔
      pyStrLt version MACRO.GAMS_min_version = true) ∧
    (pyStrLt version MACRO.GAMS_min_version = true →
      MACRO.init version =
        Except.error ("MACRO requires GAMS >= 24.8.1; found " ++ version) ∧
      MESSAGE_MACRO.init version =
        Except.error ("MESSAGE-MACRO requires GAMS >= 24.8.1; found " ++ version)) ∧
    (pyStrLt version MACRO.GAMS_min_version = false →
      MACRO.init version = Except.ok () ∧
      MESSAGE_MACRO.init version = Except.ok ()) := by
  by_cases h : pyStrLt version MACRO.GAMS_min_version
  · refine ⟨by simp [MACRO.init, MACRO.initCheck, if_pos h, isOkE, h], fun _ => ⟨?_, ?_⟩,
      fun hf => absurd h (by simp [hf])⟩
    · show MACRO.initCheck MACRO.className version = _
      unfold MACRO.initCheck
      rw [if_pos h]
      rfl
    · show MACRO.initCheck MESSAGE_MACRO.className version = _
      unfold MACRO.initCheck
      rw [if_pos h]
      rfl
  · have hf : pyStrLt version MACRO.GAMS_min_version = false := by
      simpa using h
    refine ⟨?_, fun ht => absurd ht (by simp [hf]), fun _ => ⟨?_, ?_⟩⟩
    · simp [MACRO.init, MACRO.initCheck, hf, isOkE]
    · show MACRO.initCheck MACRO.className version = _
      unfold MACRO.initCheck
      rw [hf]
      rfl
    · show MACRO.initCheck MESSAGE_MACRO.className version = _
      unfold MACRO.initCheck
      rw [hf]
      rfl

/-- C1 (witness): at release `24.7.4` (smaller than `24.8.1` also as a
string) construction raises with the documented message; at `30.2.0` it
proceeds. -/
theorem claim_C1_witness :
    MACRO.init "24.7.4" =
      Except.error "MACRO requires GAMS >= 24.8.1; found 24.7.4" ∧
    MESSAGE_MACRO.init "24.7.4" =
      Except.error "MESSAGE-MACRO requires GAMS >= 24.8.1; found 24.7.4" ∧
    MACRO.init "30.2.0" = Except.ok () :=
  ⟨((claim_C1 "24.7.4").2.1 (by decide)).1,
   ((claim_C1 "24.7.4").2.1 (by decide)).2,
   ((claim_C1 "30.2.0").2.2 (by decide)).1⟩

/-- C2: for every scenario, `GAMSModel.run` first writes `cplex.opt` in
the model directory with one `key = value` line per entry of `cplex_opts`
joined by newlines, then invokes the engine via the parent `run`, and
removes `cplex.opt` afterwards in every case; a normal engine result is
returned and an engine exception propagates. -/
theorem claim_C2 (model_dir : String) (cplex_opts : List (String × PyVal))
    (outcome : Except String PyVal) :
    (GAMSModel.run model_dir cplex_opts outcome).1 =
      [Event.writeText (model_dir ++ "/cplex.opt")
        (String.intercalate "\n"
          (cplex_opts.map (fun kv => kv.1 ++ " = " ++ pyStr kv.2))),
       Event.runEngine,
       Event.unlink (model_dir ++ "/cplex.opt")] ∧
    (GAMSModel.run model_dir cplex_opts outcome).2 = outcome :=
  ⟨rfl, rfl⟩

/-- C7: the solver-options file path touched by `GAMSModel.run` depends
only on `model_dir` — the same `model_dir/cplex.opt` is first written and
then unlinked — so two invocations sharing a `model_dir` touch exactly the
same file whatever their options and outcomes. -/
theorem claim_C7 (model_dir : String)
    (opts opts' : List (String × PyVal)) (o o' : Except String PyVal) :
    ((GAMSModel.run model_dir opts o).1.filterMap eventPath =
      [model_dir ++ "/cplex.opt", model_dir ++ "/cplex.opt"]) ∧
    ((GAMSModel.run model_dir opts o).1.filterMap eventPath =
      (GAMSModel.run model_dir opts' o').1.filterMap eventPath) :=
  ⟨rfl, rfl⟩

/-- C4: `gams_release` writes a temporary no-op program `$exit;`, executes
the solver, removes the program, the listing file and the directory, and
the version it scrapes with `^GAMS ([\d\.]+)\s*Copyright` consists only of
digits and dots. -/
theorem claim_C4 (output : String) :
    (gams_release output).1 =
      [GEvent.mkdtemp,
       GEvent.writeText "null.gms" "$exit;",
       GEvent.execute ["gams", "null", "-LogOption=3"],
       GEvent.unlink "null.gms",
       GEvent.unlink "null.lst",
       GEvent.rmdir] ∧
    ∀ v, (gams_release output).2 = some v →
      v.data.all (fun c => c.isDigit || c = '.') = true := by
  refine ⟨rfl, fun v hv => ?_⟩
  simp only [gams_release] at hv
  cases hg : gamsSearch output.data with
  | none => rw [hg] at hv; exact absurd hv (by simp)
  | some cs =>
      rw [hg] at hv
      simp only [Option.map, Option.some.injEq] at hv
      subst hv
      exact gamsSearch_all output.data cs hg

/-- C4 (witness): on a real-looking console banner the scrape succeeds and
returns `24.7.4`, which is made of digits and dots. -/
theorem claim_C4_witness :
    ("24.7.4" : String).data.all (fun c => c.isDigit || c = '.') = true :=
  (claim_C4 "GAMS 24.7.4  Copyright (C) 1987-2016 GAMS Development\n").2
    "24.7.4" rfl

/-- C5: the generated file-path templates are the path parts joined under
the `{model_dir}` placeholder — `model_file`, `in_file` and `out_file` are
exactly the three claimed strings — and in the `ChainMap` any key present
in both the MESSAGE-specific map and the base ixmp defaults resolves to the
MESSAGE-specific value, while keys only in the base defaults remain
visible. -/
theorem claim_C5 (fileParent : String) (base : List (String × DefVal)) :
    dget (GAMSModel.messageDefaults fileParent) "model_file" =
      some (DefVal.s "{model_dir}/{model_name}_run.gms") ∧
    dget (GAMSModel.messageDefaults fileParent) "in_file" =
      some (DefVal.s "{model_dir}/data/MsgData_{case}.gdx") ∧
    dget (GAMSModel.messageDefaults fileParent) "out_file" =
      some (DefVal.s "{model_dir}/output/MsgOutput_{case}.gdx") ∧
    (∀ k v w, dget (GAMSModel.messageDefaults fileParent) k = some v →
      dget base k = some w →
      GAMSModel.defaults fileParent base k = some v) ∧
    (∀ k w, dget (GAMSModel.messageDefaults fileParent) k = none →
      dget base k = some w →
      GAMSModel.defaults fileParent base k = some w) := by
  refine ⟨rfl, rfl, rfl, fun k v w h1 _ => ?_, fun k w h1 h2 => ?_⟩
  · unfold GAMSModel.defaults
    rw [h1]
    rfl
  · unfold GAMSModel.defaults
    rw [h1]
    exact h2

/-- C5 (witness): with a concrete base map, `model_file` (present in both
maps) resolves to the MESSAGE template and `case` (present only in the
base) stays visible. -/
theorem claim_C5_witness :
    GAMSModel.defaults "/pkg" baseDefaultsW "model_file" =
      some (DefVal.s "{model_dir}/{model_name}_run.gms") ∧
    GAMSModel.defaults "/pkg" baseDefaultsW "case" =
      some (DefVal.s "{scenario}_{model}") :=
  ⟨(claim_C5 "/pkg" baseDefaultsW).2.2.2.1 "model_file" _ _ rfl rfl,
   (claim_C5 "/pkg" baseDefaultsW).2.2.2.2 "case" _ rfl rfl⟩

/-- C6: every `MESSAGE_ITEMS` entry has `ix_type` `set` or `par`; every
`par` entry carries an `idx_sets` list; whenever an entry gives
`idx_names` its length equals that of its `idx_sets`; and the items
declared by the (inherited) `initialize` are exactly `MESSAGE_ITEMS`. -/
theorem claim_C6 :
    (∀ p ∈ MESSAGE_ITEMS,
      ixTypeOf p.2 = some "set" ∨ ixTypeOf p.2 = some "par") ∧
    (∀ p ∈ MESSAGE_ITEMS,
      ixTypeOf p.2 = some "par" → (idxSetsOf p.2).isSome = true) ∧
    (∀ p ∈ MESSAGE_ITEMS,
      idxNamesOf p.2 = none ∨
        ((idxNamesOf p.2).map List.length = (idxSetsOf p.2).map List.length ∧
         (idxSetsOf p.2).isSome = true)) ∧
    MESSAGE.initializeItems = MESSAGE_ITEMS ∧
    GAMSModel.initializeItems = MESSAGE_ITEMS := by
  refine ⟨?_, ?_, ?_, rfl, rfl⟩ <;> decide

/-- C6 (witness): the first clause at the concrete entry
`relation_storage`, whose `ix_type` is `par`. -/
theorem claim_C6_witness :
    ixTypeOf [("ix_type", ItemVal.s "par"),
      ("idx_sets", ItemVal.ls ["node", "technology", "level", "year", "year",
                               "time", "time"]),
      ("idx_names", ItemVal.ls ["node", "technology", "level", "year_first",
                                "year_last", "time_first", "time_last"])] =
        some "par" := by
  have h := claim_C6.1 ("relation_storage",
    [("ix_type", ItemVal.s "par"),
     ("idx_sets", ItemVal.ls ["node", "technology", "level", "year", "year",
                              "time", "time"]),
     ("idx_names", ItemVal.ls ["node", "technology", "level", "year_first",
                               "year_last", "time_first", "time_last"])])
    (by decide)
  rcases h with h | h
  · exact absurd h (by decide)
  · exact h

/-- C10: `read_version` takes the text of `version.gms` from the
configured model directory when that file exists (the packaged copy is
then irrelevant) and from the packaged copy otherwise, and returns
`MAJOR.MINOR.PATCH` assembled from the first matches of the three
`VERSION_*` patterns in that text. -/
theorem claim_C10 (cfg : Option String) (pkg mj mn pt : String)
    (h1 : reSearchVersion "VERSION_MAJOR" (versionText cfg pkg) = some mj)
    (h2 : reSearchVersion "VERSION_MINOR" (versionText cfg pkg) = some mn)
    (h3 : reSearchVersion "VERSION_PATCH" (versionText cfg pkg) = some pt) :
    GAMSModel.readVersion cfg pkg = some (mj ++ "." ++ mn ++ "." ++ pt) ∧
    (∀ t pkg', GAMSModel.readVersion (some t) pkg' =
      GAMSModel.readVersion (some t) "") ∧
    GAMSModel.readVersion none pkg = GAMSModel.readVersion (some pkg) "" := by
  refine ⟨?_, fun t pkg' => rfl, rfl⟩
  unfold GAMSModel.readVersion
  simp only [h1, h2, h3]

/-- C10 (witness): on a concrete `version.gms` text reached through the
packaged-copy fallback, the assembled version is `3.2.0`. -/
theorem claim_C10_witness :
    GAMSModel.readVersion none
      "$setglobal VERSION_MAJOR \"3\"\n$setglobal VERSION_MINOR \"2\"\n$setglobal VERSION_PATCH \"0\"\n"
      = some "3.2.0" :=
  (claim_C10 none
    "$setglobal VERSION_MAJOR \"3\"\n$setglobal VERSION_MINOR \"2\"\n$setglobal VERSION_PATCH \"0\"\n"
    "3" "2" "0" rfl rfl rfl).1

/-- C3: for every mapping passed as `solve_options`, after
`GAMSModel.__init__` the instance's `cplex_opts` maps every user key to the
user value and every `DEFAULT_CPLEX_OPTIONS` key not overridden to its
default; with no `solve_options`, `cplex_opts` equals
`DEFAULT_CPLEX_OPTIONS`; and `solve_options` is removed from the options
forwarded to the parent constructor. -/
theorem claim_C3 (md : OptVal) (mo : List (String × OptVal))
    (u : List (String × PyVal))
    (hmo : nodupKeys mo) (hu : nodupKeys u)
    (hso : dget mo "solve_options" = some (OptVal.d u)) :
    (∃ r, GAMSModel.init md mo = Except.ok r ∧
      (∀ k x, dget u k = some x → dget r.cplex_opts k = some x) ∧
      (∀ k, dget u k = none →
        dget r.cplex_opts k = dget DEFAULT_CPLEX_OPTIONS k) ∧
      dget r.superOptions "solve_options" = none) ∧
    (∀ mo', dget mo' "solve_options" = none →
      ∃ r, GAMSModel.init md mo' = Except.ok r ∧
        r.cplex_opts = DEFAULT_CPLEX_OPTIONS) := by
  constructor
  · unfold GAMSModel.init
    dsimp only
    by_cases hc : dcontains mo "model_dir"
    · rw [if_pos hc, hso]
      refine ⟨_, rfl, fun k x hx => dget_dupd_some _ _ _ _ hu hx,
        fun k hk => dget_dupd_none _ _ _ hk, ?_⟩
      exact dget_derase_self _ _ hmo
    · rw [if_neg hc]
      have hne : ("solve_options" : String) ≠ "model_dir" := by decide
      have hso2 : dget (dset mo "model_dir" md) "solve_options" =
          some (OptVal.d u) := by
        rw [dget_dset_ne _ _ _ _ hne]
        exact hso
      rw [hso2]
      refine ⟨_, rfl, fun k x hx => dget_dupd_some _ _ _ _ hu hx,
        fun k hk => dget_dupd_none _ _ _ hk, ?_⟩
      exact dget_derase_self _ _ (nodupKeys_dset _ _ _ hmo)
  · intro mo' hso'
    unfold GAMSModel.init
    dsimp only
    by_cases hc : dcontains mo' "model_dir"
    · rw [if_pos hc, hso']
      exact ⟨_, rfl, rfl⟩
    · rw [if_neg hc]
      have hne : ("solve_options" : String) ≠ "model_dir" := by decide
      have hso2 : dget (dset mo' "model_dir" md) "solve_options" = none := by
        rw [dget_dset_ne _ _ _ _ hne]
        exact hso'
      rw [hso2]
      exact ⟨_, rfl, rfl⟩

/-- C3 (witness): a concrete `solve_options` mapping overrides `lpmethod`,
adds `barcrossalg`, leaves `advind` at its default, and is removed from the
forwarded options; and omitting `solve_options` leaves the defaults. -/
theorem claim_C3_witness :
    (∃ r, GAMSModel.init (OptVal.v (PyVal.str "/m"))
        [("solve_options", OptVal.d [("lpmethod", PyVal.int 4),
                                     ("barcrossalg", PyVal.int 2)])] =
      Except.ok r ∧
      dget r.cplex_opts "lpmethod" = some (PyVal.int 4) ∧
      dget r.cplex_opts "barcrossalg" = some (PyVal.int 2) ∧
      dget r.cplex_opts "advind" = some (PyVal.int 0) ∧
      dget r.superOptions "solve_options" = none) ∧
    (∃ r, GAMSModel.init (OptVal.v (PyVal.str "/m")) [] = Except.ok r ∧
      r.cplex_opts = DEFAULT_CPLEX_OPTIONS) := by
  have h := claim_C3 (OptVal.v (PyVal.str "/m"))
    [("solve_options", OptVal.d [("lpmethod", PyVal.int 4),
                                 ("barcrossalg", PyVal.int 2)])]
    [("lpmethod", PyVal.int 4), ("barcrossalg", PyVal.int 2)]
    (by decide) (by decide) (by decide)
  obtain ⟨⟨r, hok, h1, h2, h3⟩, hnone⟩ := h
  refine ⟨⟨r, hok, h1 "lpmethod" _ (by decide), h1 "barcrossalg" _ (by decide),
    (h2 "advind" (by decide)).trans (by decide), h3⟩, hnone [] (by decide)⟩

/-! # Lemmas for the cplex-options heap -/

theorem nthOpt_mem {α : Type} (l : List α) (n : Nat) (a : α)
    (h : nthOpt l n = some a) : a ∈ l := by
  induction l generalizing n with
  | nil => simp [nthOpt] at h
  | cons x rest ih =>
      cases n with
      | zero =>
          simp only [nthOpt, Option.some.injEq] at h
          subst h
          exact List.mem_cons_self _ _
      | succ m =>
          simp only [nthOpt] at h
          exact List.mem_cons_of_mem _ (ih m h)

theorem nthOpt_append_last {α : Type} (l : List α) (x : α) :
    nthOpt (l ++ [x]) l.length = some x := by
  have := nthOpt_append_add l [x] 0
  simpa using this

theorem cplexStep_inv (s : CplexState) (op : CplexOp)
    (h1 : ∃ rest, s.heap.cells = DEFAULT_CPLEX_OPTIONS :: rest)
    (h2 : ∀ a ∈ s.insts, 1 ≤ a) :
    (∃ rest, (stepCplex s op).heap.cells = DEFAULT_CPLEX_OPTIONS :: rest) ∧
    ∀ a ∈ (stepCplex s op).insts, 1 ≤ a := by
  obtain ⟨rest, hcells⟩ := h1
  cases op with
  | construct solve =>
      simp only [stepCplex, GAMSModel.initAlloc, Heap.alloc, Heap.write]
      rw [hcells]
      constructor
      · exact ⟨_, rfl⟩
      · intro a ha
        rcases List.mem_append.mp ha with ha | ha
        · exact h2 a ha
        · simp only [List.mem_singleton] at ha
          subst ha
          simp
  | setItem i k v =>
      simp only [stepCplex]
      cases hn : nthOpt s.insts i with
      | none => exact ⟨⟨rest, hcells⟩, h2⟩
      | some a =>
          have ha1 : 1 ≤ a := h2 a (nthOpt_mem _ _ _ hn)
          obtain ⟨m, hm⟩ : ∃ m, a = m + 1 := ⟨a - 1, by omega⟩
          subst hm
          constructor
          · simp only [Heap.write]
            rw [hcells]
            exact ⟨_, rfl⟩
          · exact h2

theorem cplexRun_inv (ops : List CplexOp) (s : CplexState)
    (h1 : ∃ rest, s.heap.cells = DEFAULT_CPLEX_OPTIONS :: rest)
    (h2 : ∀ a ∈ s.insts, 1 ≤ a) :
    (∃ rest, (ops.foldl stepCplex s).heap.cells =
      DEFAULT_CPLEX_OPTIONS :: rest) ∧
    ∀ a ∈ (ops.foldl stepCplex s).insts, 1 ≤ a := by
  induction ops generalizing s with
  | nil => exact ⟨h1, h2⟩
  | cons op rest ih =>
      obtain ⟨g1, g2⟩ := cplexStep_inv s op h1 h2
      exact ih (stepCplex s op) g1 g2

/-- C9: `GAMSModel.__init__` copies `DEFAULT_CPLEX_OPTIONS` before applying
user overrides, so any sequence of constructions (with any
`solve_options`) and in-place mutations of instances' `cplex_opts` leaves
the module-level `DEFAULT_CPLEX_OPTIONS` cell unchanged; and every fresh
instance starts from the defaults updated with its own overrides. -/
theorem claim_C9 (ops : List CplexOp) :
    (runCplex ops).heap.read 0 = DEFAULT_CPLEX_OPTIONS ∧
    ∀ solve,
      (stepCplex (runCplex ops) (CplexOp.construct solve)).heap.read
        (runCplex ops).heap.cells.length = dupd DEFAULT_CPLEX_OPTIONS solve := by
  have hinv := cplexRun_inv ops initialCplexState
    ⟨[], rfl⟩ (by intro a ha; simp [initialCplexState] at ha)
  obtain ⟨⟨rest, hcells⟩, _⟩ := hinv
  constructor
  · show (runCplex ops).heap.read 0 = DEFAULT_CPLEX_OPTIONS
    unfold Heap.read
    rw [show (runCplex ops).heap.cells = DEFAULT_CPLEX_OPTIONS :: rest from hcells]
    rfl
  · intro solve
    have hcells2 : (runCplex ops).heap.cells = DEFAULT_CPLEX_OPTIONS :: rest :=
      hcells
    simp only [stepCplex, GAMSModel.initAlloc, Heap.alloc, Heap.write, Heap.read]
    rw [hcells2]
    have e0 : nthD (DEFAULT_CPLEX_OPTIONS :: rest) 0 ([] : List (String × PyVal)) =
        DEFAULT_CPLEX_OPTIONS := rfl
    rw [e0]
    have e1 : nthD ((DEFAULT_CPLEX_OPTIONS :: rest) ++ [DEFAULT_CPLEX_OPTIONS])
        (DEFAULT_CPLEX_OPTIONS :: rest).length ([] : List (String × PyVal)) =
        DEFAULT_CPLEX_OPTIONS := by
      unfold nthD
      rw [nthOpt_append_last]
      rfl
    rw [e1]
    unfold nthD
    rw [nthOpt_setNth_self _ _ _ (by simp)]
    rfl

/-! # Lemmas for the MACRO item heap -/

theorem Heap.read_write_self {V : Type} (h : Heap V) (a : Nat)
    (d : List (String × V)) (ha : a < h.cells.length) :
    (h.write a d).read a = d := by
  unfold Heap.write Heap.read nthD
  rw [nthOpt_setNth_self _ _ _ ha]
  rfl

theorem Heap.read_write_ne {V : Type} (h : Heap V) (a a' : Nat)
    (d : List (String × V)) (ha : a ≠ a') :
    (h.write a d).read a' = h.read a' := by
  unfold Heap.write Heap.read nthD
  rw [nthOpt_setNth_ne _ _ _ _ ha]

theorem Heap.write_length {V : Type} (h : Heap V) (a : Nat)
    (d : List (String × V)) :
    (h.write a d).cells.length = h.cells.length := by
  unfold Heap.write
  exact setNth_length _ _ _

theorem Heap.read_append_lt {V : Type} (h : Heap V)
    (l : List (List (String × V))) (a : Nat) (ha : a < h.cells.length) :
    (Heap.mk (h.cells ++ l) : Heap V).read a = h.read a := by
  unfold Heap.read nthD
  rw [nthOpt_append_lt _ _ _ ha]

theorem nthOpt_reEnum {α : Type} (i : Nat) (t : List (String × α)) (j : Nat) :
    nthOpt (reEnum i t) j = (nthOpt t j).map (fun p => (p.1, i + j)) := by
  induction t generalizing i j with
  | nil => simp [reEnum, nthOpt]
  | cons q rest ih =>
      obtain ⟨nm, a⟩ := q
      cases j with
      | zero => simp [reEnum, nthOpt]
      | succ j' =>
          simp only [reEnum, nthOpt]
          rw [ih (i + 1) j']
          cases nthOpt rest j' with
          | none => rfl
          | some p =>
              simp only [Option.map]
              have : i + 1 + j' = i + (j' + 1) := by omega
              rw [this]

theorem deepcopyTable_spec (h : Heap ItemVal) (t : List (String × Nat))
    (hb : ∀ p ∈ t, p.2 < h.cells.length) :
    deepcopyTable h t =
      (Heap.mk (h.cells ++ t.map (fun p => h.read p.2)),
       reEnum h.cells.length t) := by
  induction t generalizing h with
  | nil => simp [deepcopyTable, reEnum]
  | cons q rest ih =>
      obtain ⟨nm, a⟩ := q
      have hb0 : a < h.cells.length := hb (nm, a) (List.mem_cons_self _ _)
      have hbr : ∀ p ∈ rest, p.2 < (Heap.mk (h.cells ++ [h.read a]) : Heap ItemVal).cells.length := by
        intro p hp
        have := hb p (List.mem_cons_of_mem _ hp)
        simp only [List.length_append, List.length_cons, List.length_nil]
        omega
      simp only [deepcopyTable, Heap.alloc]
      rw [ih _ hbr]
      have hmap : rest.map
          (fun p => (Heap.mk (h.cells ++ [h.read a]) : Heap ItemVal).read p.2) =
          rest.map (fun p => h.read p.2) := by
        apply List.map_congr_left
        intro p hp
        exact Heap.read_append_lt h [h.read a] p.2 (hb p (List.mem_cons_of_mem _ hp))
      simp only [hmap]
      have hlen1 : (h.cells ++ [h.read a]).length = h.cells.length + 1 := by simp
      rw [hlen1, List.append_assoc]
      rfl

theorem popIdxSets_spec (names : List String) :
    ∀ (items : List (String × Nat)) (h : Heap ItemVal),
    (∀ nm ∈ names, ∃ a, dget items nm = some a ∧ a < h.cells.length ∧
      dcontains (h.read a) "idx_sets" = true) →
    (∀ nm nm' a, nm ∈ names → nm' ∈ names → nm ≠ nm' →
      dget items nm = some a → dget items nm' ≠ some a) →
    names.Nodup →
    ∃ h', popIdxSets items h names = Except.ok h' ∧
      (∀ nm a, nm ∈ names → dget items nm = some a →
        h'.read a = derase (h.read a) "idx_sets") ∧
      (∀ a, (∀ nm ∈ names, dget items nm ≠ some a) → h'.read a = h.read a) ∧
      h'.cells.length = h.cells.length := by
  induction names with
  | nil =>
      intro items h _ _ _
      exact ⟨h, rfl, by simp, fun a _ => rfl, rfl⟩
  | cons nm rest ih =>
      intro items h H1 H2 H3
      obtain ⟨a0, ha0, ha0lt, ha0c⟩ := H1 nm (List.mem_cons_self _ _)
      obtain ⟨hnm, hrestnd⟩ := List.nodup_cons.mp H3
      set h1 := h.write a0 (derase (h.read a0) "idx_sets") with hh1
      have H1' : ∀ nm' ∈ rest, ∃ a, dget items nm' = some a ∧
          a < h1.cells.length ∧ dcontains (h1.read a) "idx_sets" = true := by
        intro nm' hmem
        obtain ⟨a', ha', ha'lt, ha'c⟩ := H1 nm' (List.mem_cons_of_mem _ hmem)
        have hne : nm ≠ nm' := fun he => hnm (he ▸ hmem)
        have hane : a0 ≠ a' := by
          intro he
          exact H2 nm nm' a0 (List.mem_cons_self _ _)
            (List.mem_cons_of_mem _ hmem) hne ha0 (he ▸ ha')
        refine ⟨a', ha', ?_, ?_⟩
        · rw [hh1, Heap.write_length]; exact ha'lt
        · rw [hh1, Heap.read_write_ne _ _ _ _ hane]; exact ha'c
      have H2' : ∀ nm' nm'' a, nm' ∈ rest → nm'' ∈ rest → nm' ≠ nm'' →
          dget items nm' = some a → dget items nm'' ≠ some a := by
        intro nm' nm'' a hm1 hm2 hne hga
        exact H2 nm' nm'' a (List.mem_cons_of_mem _ hm1)
          (List.mem_cons_of_mem _ hm2) hne hga
      obtain ⟨h', hok, hc1, hc2, hc3⟩ := ih items h1 H1' H2' hrestnd
      refine ⟨h', ?_, ?_, ?_, ?_⟩
      · show popIdxSets items h (nm :: rest) = Except.ok h'
        unfold popIdxSets
        rw [ha0]
        dsimp only
        rw [if_pos ha0c]
        exact hok
      · intro nm' a hmem hga
        rcases List.mem_cons.mp hmem with he | hmem'
        · subst he
          rw [ha0] at hga
          obtain rfl : a0 = a := Option.some.inj hga
          have huntouched : ∀ nm'' ∈ rest, dget items nm'' ≠ some a0 := by
            intro nm'' hmem'' he
            have hne : nm' ≠ nm'' := fun h => hnm (h ▸ hmem'')
            exact H2 nm' nm'' a0 (List.mem_cons_self _ _)
              (List.mem_cons_of_mem _ hmem'') hne ha0 he
          rw [hc2 a0 huntouched, hh1, Heap.read_write_self _ _ _ ha0lt]
        · have hne : nm ≠ nm' := fun he => hnm (he ▸ hmem')
          have hane : a0 ≠ a := by
            intro he
            exact H2 nm nm' a0 (List.mem_cons_self _ _)
              (List.mem_cons_of_mem _ hmem') hne ha0 (he ▸ hga)
          rw [hc1 nm' a hmem' hga, hh1, Heap.read_write_ne _ _ _ _ hane]
      · intro a huntouched
        have ha0ne : a0 ≠ a := by
          intro he
          exact huntouched nm (List.mem_cons_self _ _) (he ▸ ha0)
        rw [hc2 a (fun nm' hm => huntouched nm' (List.mem_cons_of_mem _ hm)),
          hh1, Heap.read_write_ne _ _ _ _ ha0ne]
      · rw [hc3, hh1, Heap.write_length]

theorem macroCall (tbl : List (String × List (String × ItemVal)))
    (s : MacroState)
    (Hsix : ∀ nm ∈ macroPopNames, hasIdxSets tbl nm = true)
    (ht : s.table = reEnum 0 tbl)
    (hlen : tbl.length ≤ s.heap.cells.length)
    (hread : ∀ j, j < tbl.length → s.heap.read j = nthD (tbl.map Prod.snd) j []) :
    ∃ s2 items, MACRO.initializeH s = Except.ok (s2, items) ∧
      s2.table = s.table ∧
      tbl.length ≤ s2.heap.cells.length ∧
      (∀ j, j < tbl.length → s2.heap.read j = nthD (tbl.map Prod.snd) j []) ∧
      (∀ nm d, dget tbl nm = some d → ∃ a, dget items nm = some a ∧
        s2.heap.read a = if nm ∈ macroPopNames then derase d "idx_sets" else d) := by
  have hb : ∀ p ∈ s.table, p.2 < s.heap.cells.length := by
    intro p hp
    rw [ht] at hp
    have := mem_reEnum 0 tbl p hp
    omega
  have dc := deepcopyTable_spec s.heap s.table hb
  have items_eq : reEnum s.heap.cells.length s.table =
      reEnum s.heap.cells.length tbl := by
    rw [ht, reEnum_reEnum]
  have hMlen : (s.table.map (fun p => s.heap.read p.2)).length = tbl.length := by
    rw [List.length_map, ht, reEnum_length]
  have h1len :
      (Heap.mk (s.heap.cells ++ s.table.map (fun p => s.heap.read p.2)) :
        Heap ItemVal).cells.length = s.heap.cells.length + tbl.length := by
    simp only [List.length_append, hMlen]
  have hF2 : ∀ j nm d, nthOpt tbl j = some (nm, d) →
      (Heap.mk (s.heap.cells ++ s.table.map (fun p => s.heap.read p.2)) :
        Heap ItemVal).read (s.heap.cells.length + j) = d := by
    intro j nm d hj
    have hjlt : j < tbl.length := by
      have := nthOpt_lt_length tbl j _ hj
      exact this
    show nthD (s.heap.cells ++ s.table.map (fun p => s.heap.read p.2))
      (s.heap.cells.length + j) [] = d
    unfold nthD
    rw [nthOpt_append_add, nthOpt_map, ht, nthOpt_reEnum, hj]
    simp only [Option.map_some', Option.getD_some]
    rw [Nat.zero_add, hread j hjlt]
    unfold nthD
    rw [nthOpt_map, hj]
    rfl
  have hget : ∀ nm, dget (reEnum s.heap.cells.length tbl) nm =
      (posOf tbl nm).map (fun j => s.heap.cells.length + j) :=
    fun nm => dget_reEnum _ tbl nm
  have H1 : ∀ nm ∈ macroPopNames, ∃ a,
      dget (reEnum s.heap.cells.length tbl) nm = some a ∧
      a < (Heap.mk (s.heap.cells ++ s.table.map (fun p => s.heap.read p.2)) :
        Heap ItemVal).cells.length ∧
      dcontains ((Heap.mk (s.heap.cells ++
        s.table.map (fun p => s.heap.read p.2)) : Heap ItemVal).read a)
        "idx_sets" = true := by
    intro nm hmem
    have hh := Hsix nm hmem
    unfold hasIdxSets at hh
    cases hg : dget tbl nm with
    | none => rw [hg] at hh; exact absurd hh (by simp)
    | some d =>
        rw [hg] at hh
        obtain ⟨j, hj, hjn⟩ := dget_posOf tbl nm d hg
        have hjlt : j < tbl.length := posOf_lt_length tbl nm j hj
        refine ⟨s.heap.cells.length + j, ?_, ?_, ?_⟩
        · rw [hget nm, hj]; rfl
        · rw [h1len]; omega
        · rw [hF2 j nm d hjn]; exact hh
  have H2 : ∀ nm nm' a, nm ∈ macroPopNames → nm' ∈ macroPopNames → nm ≠ nm' →
      dget (reEnum s.heap.cells.length tbl) nm = some a →
      dget (reEnum s.heap.cells.length tbl) nm' ≠ some a := by
    intro nm nm' a _ _ hne hga hga'
    rw [hget nm] at hga
    rw [hget nm'] at hga'
    cases hp : posOf tbl nm with
    | none => rw [hp] at hga; exact absurd hga (by simp)
    | some j =>
        cases hp' : posOf tbl nm' with
        | none => rw [hp'] at hga'; exact absurd hga' (by simp)
        | some j' =>
            rw [hp] at hga
            rw [hp'] at hga'
            simp only [Option.map_some', Option.some.injEq] at hga hga'
            have hjj : j = j' := by omega
            subst hjj
            obtain ⟨v, hv, _⟩ := posOf_nthOpt tbl nm j hp
            obtain ⟨v', hv', _⟩ := posOf_nthOpt tbl nm' j hp'
            rw [hv] at hv'
            have hp2 : (nm, v) = (nm', v') := Option.some.inj hv'
            cases hp2
            exact (hne rfl).elim
  obtain ⟨h2, hok, hc1, hc2, hc3⟩ :=
    popIdxSets_spec macroPopNames (reEnum s.heap.cells.length tbl)
      (Heap.mk (s.heap.cells ++ s.table.map (fun p => s.heap.read p.2)))
      H1 H2 (by decide)
  have hmain : MACRO.initializeH s =
      Except.ok (⟨h2, s.table⟩, reEnum s.heap.cells.length tbl) := by
    unfold MACRO.initializeH
    rw [dc]
    dsimp only
    rw [items_eq, hok]
  refine ⟨⟨h2, s.table⟩, reEnum s.heap.cells.length tbl, hmain, rfl, ?_, ?_, ?_⟩
  · show tbl.length ≤ h2.cells.length
    rw [hc3, h1len]
    omega
  · intro j hj
    show h2.read j = nthD (tbl.map Prod.snd) j []
    have hjL : j < s.heap.cells.length := by omega
    have huntouched : ∀ nm ∈ macroPopNames,
        dget (reEnum s.heap.cells.length tbl) nm ≠ some j := by
      intro nm _ hgj
      rw [hget nm] at hgj
      cases hp : posOf tbl nm with
      | none => rw [hp] at hgj; exact absurd hgj (by simp)
      | some j' =>
          rw [hp] at hgj
          simp only [Option.map_some', Option.some.injEq] at hgj
          omega
    rw [hc2 j huntouched,
      Heap.read_append_lt s.heap _ j hjL, hread j hj]
  · intro nm d hg
    obtain ⟨j, hj, hjn⟩ := dget_posOf tbl nm d hg
    refine ⟨s.heap.cells.length + j, by rw [hget nm, hj]; rfl, ?_⟩
    by_cases hmem : nm ∈ macroPopNames
    · rw [if_pos hmem]
      have hitem : dget (reEnum s.heap.cells.length tbl) nm =
          some (s.heap.cells.length + j) := by
        rw [hget nm, hj]; rfl
      show h2.read (s.heap.cells.length + j) = derase d "idx_sets"
      rw [hc1 nm _ hmem hitem, hF2 j nm d hjn]
    · rw [if_neg hmem]
      have huntouched : ∀ nm' ∈ macroPopNames,
          dget (reEnum s.heap.cells.length tbl) nm' ≠
            some (s.heap.cells.length + j) := by
        intro nm' hmem' hgj
        rw [hget nm'] at hgj
        cases hp : posOf tbl nm' with
        | none => rw [hp] at hgj; exact absurd hgj (by simp)
        | some j' =>
            rw [hp] at hgj
            simp only [Option.map_some', Option.some.injEq] at hgj
            have hjj : j' = j := by omega
            subst hjj
            obtain ⟨v', hv', _⟩ := posOf_nthOpt tbl nm' j' hp
            rw [hjn] at hv'
            have hp2 : (nm, d) = (nm', v') := Option.some.inj hv'
            cases hp2
            exact hmem hmem'
      show h2.read (s.heap.cells.length + j) = d
      rw [hc2 _ huntouched, hF2 j nm d hjn]

theorem macroIterate_spec (tbl : List (String × List (String × ItemVal)))
    (Hsix : ∀ nm ∈ macroPopNames, hasIdxSets tbl nm = true) :
    ∀ (n : Nat) (s : MacroState), s.table = reEnum 0 tbl →
    tbl.length ≤ s.heap.cells.length →
    (∀ j, j < tbl.length → s.heap.read j = nthD (tbl.map Prod.snd) j []) →
    ∃ s', macroIterate n s = Except.ok s' ∧ s'.table = reEnum 0 tbl ∧
      tbl.length ≤ s'.heap.cells.length ∧
      (∀ j, j < tbl.length → s'.heap.read j = nthD (tbl.map Prod.snd) j []) := by
  intro n
  induction n with
  | zero => exact fun s ht hlen hread => ⟨s, rfl, ht, hlen, hread⟩
  | succ m ih =>
      intro s ht hlen hread
      obtain ⟨s2, items, hok, ht2, hlen2, hread2, _⟩ :=
        macroCall tbl s Hsix ht hlen hread
      obtain ⟨s', hok', ht', hlen', hread'⟩ :=
        ih s2 (ht2.trans ht) hlen2 hread2
      refine ⟨s', ?_, ht', hlen', hread'⟩
      show macroIterate (m + 1) s = Except.ok s'
      unfold macroIterate
      rw [hok]
      exact hok'

/-- C8: `MACRO.initialize` operates on a deep copy of the module-level
`MACRO_ITEMS` table (whose contents live in `macro.py`, outside this
fragment, so the table is an arbitrary `tbl`): the copy it hands to
`initialize_items` has the `idx_sets` entry removed from exactly the six
items `C`, `COST_NODAL`, `COST_NODAL_NET`, `DEMAND`, `GDP`, `I` and every
other item unchanged, while the module-level table itself is unchanged by
any number `n` of calls — in particular every call succeeds, still finding
the `idx_sets` entries present. -/
theorem claim_C8 (tbl : List (String × List (String × ItemVal))) (n : Nat)
    (Hsix : ∀ nm ∈ macroPopNames, hasIdxSets tbl nm = true) :
    ∃ s', macroIterate n (macroSetup tbl) = Except.ok s' ∧
      s'.table = (macroSetup tbl).table ∧
      (∀ j, j < tbl.length →
        s'.heap.read j = (macroSetup tbl).heap.read j) ∧
      ∃ s2 items, MACRO.initializeH s' = Except.ok (s2, items) ∧
        (∀ nm d, dget tbl nm = some d → ∃ a, dget items nm = some a ∧
          s2.heap.read a =
            if nm ∈ macroPopNames then derase d "idx_sets" else d) ∧
        (∀ j, j < tbl.length →
          s2.heap.read j = (macroSetup tbl).heap.read j) := by
  have hread0 : ∀ j, j < tbl.length →
      (macroSetup tbl).heap.read j = nthD (tbl.map Prod.snd) j [] :=
    fun j _ => rfl
  have hlen0 : tbl.length ≤ (macroSetup tbl).heap.cells.length := by
    simp [macroSetup]
  obtain ⟨s', hok, ht', hlen', hread'⟩ :=
    macroIterate_spec tbl Hsix n (macroSetup tbl) rfl hlen0 hread0
  obtain ⟨s2, items, hok2, _, _, hread2, hres⟩ :=
    macroCall tbl s' Hsix ht' hlen' hread'
  refine ⟨s', hok, ?_, ?_, s2, items, hok2, hres, ?_⟩
  · rw [ht']; rfl
  · intro j hj
    rw [hread' j hj, hread0 j hj]
  · intro j hj
    rw [hread2 j hj, hread0 j hj]

/-- C8 (witness): on a concrete seven-item table (the six popped items
plus one other), two successive calls of `MACRO.initialize` succeed, leave
the module table untouched, and produce copies with `idx_sets` popped from
exactly the six. -/
theorem claim_C8_witness :
    ∃ s', macroIterate 2 (macroSetup macroTblW) = Except.ok s' ∧
      s'.table = (macroSetup macroTblW).table ∧
      (∀ j, j < macroTblW.length →
        s'.heap.read j = (macroSetup macroTblW).heap.read j) ∧
      ∃ s2 items, MACRO.initializeH s' = Except.ok (s2, items) ∧
        (∀ nm d, dget macroTblW nm = some d → ∃ a, dget items nm = some a ∧
          s2.heap.read a =
            if nm ∈ macroPopNames then derase d "idx_sets" else d) ∧
        (∀ j, j < macroTblW.length →
          s2.heap.read j = (macroSetup macroTblW).heap.read j) :=
  claim_C8 macroTblW 2 (by decide)

end MsgIx
